import Mathlib

/-!
Verification development for the jettison structured-error and logging library.

The definitions below are a shallow embedding of the Go sources:
  * `errors/errors.go` — the error-chain model (`New`, `Wrap`, option
    application, `hasTrace`, `GetCodes`);
  * `log/log.go` — the log-entry builder (`makeEntry`, `Error`, `addErrors`,
    `errorEntry`).

Conventions of the embedding:
  * Go `nil` errors are `Option.none`; a non-nil Go `error` value is a
    `GoError`.
  * Go slices are Lean lists; a possibly-nil slice whose nil-ness the code
    tests (`Hop.StackTrace`) is an `Option (List String)`.
  * Ambient call-site data (`os.Args[0]`, `internal.GetStackTrace(skip)`,
    `stack.Caller(skip)`, `time.Now()`) is supplied by an explicit
    environment `Env`, so every definition stays a pure, executable function.
  * Code of the repository that is referenced from the embedded files but
    lives outside the excerpted sources (`models`, `internal`, the
    `JettisonError` struct with its `Clone`/`Error`/`Unwrap` methods,
    `errors.Flatten`, `trace.Merge`) is modelled from the specification; each
    such definition carries a doc comment starting `Modelled from the spec:`.
-/

/-- Ambient process/call-site data threaded explicitly: the current binary
name (`filepath.Base(os.Args[0])`), the stack-capture primitive
(`internal.GetStackTrace(skip)`), the log caller formatter
(`stack.Caller(skip)`) and the clock (`time.Now()`). -/
structure Env where
  binary : String
  capture : Nat → List String
  caller : Nat → String
  now : Nat

/-- Modelled from the spec: an ErrorSegment (`models.Error`) — one wrapped
message layer with message text, optional code, optional source location
string, and ordered key/value parameters. -/
structure Error where
  message : String := ""
  code : String := ""
  source : String := ""
  kv : List (String × String) := []
deriving DecidableEq

/-- Modelled from the spec: a Hop (`models.Hop`) — one process/binary's
contribution to a chain: binary name, a stack trace captured at most once
per hop (`none` is Go's nil slice), and the ordered segments, newest first. -/
structure Hop where
  binary : String := ""
  stackTrace : Option (List String) := none
  errors : List Error := []
deriving DecidableEq

/-- Modelled from the spec: chain-level Metadata (`models.Metadata`) — an
overall code and a "first trace" Hop recording where the chain was first
given a stack trace. -/
structure Metadata where
  code : String := ""
  trace : Hop := {}
deriving DecidableEq

/-- The three built-in options of `errors/errors.go` (`WithBinary`,
`WithCode`, `WithoutStackTrace`), embedded as a sum so option application
is the exact type-switch of the source. -/
inductive JOption where
  | withBinary (bin : String)
  | withCode (code : String)
  | withoutStackTrace
deriving DecidableEq

/-- The `case *models.Hop:` arm of each option's type switch in
`errors/errors.go`. -/
def applyHop : JOption → Hop → Hop
  | .withBinary bin, h => { h with binary := bin }
  | .withCode code, h =>
      match h.errors with
      | [] => h
      | e :: rest => { h with errors := { e with code := code } :: rest }
  | .withoutStackTrace, h =>
      if h.errors.length ≤ 1 then { h with stackTrace := none } else h

/-- The `case *models.Metadata:` arm of each option's type switch in
`errors/errors.go`. -/
def applyMd : JOption → Metadata → Metadata
  | .withBinary bin, m => { m with trace := { m.trace with binary := bin } }
  | .withCode code, m => { m with code := code }
  | .withoutStackTrace, m => { m with trace := {} }

/-- A Go `error` value, as the chain code observes it:
  * `basic` — a foreign error with no unwrap capability (a leaf);
  * `wrapped` — a foreign error exposing a single-child `Unwrap() error`;
  * `joined` — a foreign error exposing the multi-child `Unwrap() []error`;
  * `jett` — a `*JettisonError` with its fields `message`, `metadata`,
    `OriginalErr`, `err` (the wrapped error) and `Hops`.
The `msg` argument of the foreign constructors is what that error's
`Error()` method returns. -/
inductive GoError where
  | basic (msg : String)
  | wrapped (msg : String) (inner : GoError)
  | joined (msg : String) (children : List GoError)
  | jett (message : String) (metadata : Metadata) (originalErr : Option GoError)
      (err : Option GoError) (hops : List Hop)

/-- Modelled from the spec: `Error()` rendering. The spec leaves the exact
multi-wrap textual composition open; a chain value renders its outward
message, and each foreign constructor stores its own rendering. -/
def errMessage : GoError → String
  | .basic m => m
  | .wrapped m _ => m
  | .joined m _ => m
  | .jett m _ _ _ _ => m

/-- The `Hops` field of a chain value (empty for foreign errors). -/
def GoError.hops : GoError → List Hop
  | .jett _ _ _ _ hs => hs
  | _ => []

/-- The `metadata` field of a chain value (zero for foreign errors). -/
def GoError.metadata : GoError → Metadata
  | .jett _ md _ _ _ => md
  | _ => {}

/-- Whether the dynamic type assertion `err.(*JettisonError)` succeeds. -/
def GoError.isJett : GoError → Bool
  | .jett _ _ _ _ _ => true
  | _ => false

/-- The current (first) hop of a chain value, `je.Hops[0]`. -/
def hop0 (e : GoError) : Hop := e.hops.headD {}

/-- Modelled from the spec: `internal.NewHop()` — a fresh Hop recording the
contributing binary's name and nothing else. -/
def newHop (env : Env) : Hop := { binary := env.binary }

/-- Modelled from the spec: `internal.NewError(msg)` — a fresh ErrorSegment
holding the message. -/
def newError (msg : String) : Error := { message := msg }

/-- Function `newMetadata` from `errors/errors.go`: fresh Metadata whose trace Hop
holds the calling binary's name and a stack capture at skip depth 3. -/
def newMetadata (env : Env) : Metadata :=
  { trace := { binary := env.binary, stackTrace := some (env.capture 3) } }

/-- Function `trace()` from `errors/errors.go`: the fresh Metadata trace Hop assigned
by `Wrap` when no hop in the chain owns one yet. -/
def traceHop (env : Env) : Hop :=
  { binary := env.binary, stackTrace := some (env.capture 3) }

/-- Function `hasTrace` from `errors/errors.go`: walk the unwrap chain; a chain value
whose `metadata.Trace.Binary` is non-empty owns the trace. A chain value
unwraps to its `err` field (its `Unwrap() error` method, modelled from the
spec's unwrap contract); a `wrapped` foreign error unwraps to its child;
`basic` and `joined` values do not satisfy `interface \x7b Unwrap() error \x7d`,
so the walk stops there. -/
def hasTrace : GoError → Hop × Bool
  | .jett _ md _ w _ =>
      if md.trace.binary ≠ "" then (md.trace, true)
      else
        match w with
        | some e => hasTrace e
        | none => ({}, false)
  | .wrapped _ inner => hasTrace inner
  | .basic _ => ({}, false)
  | .joined _ _ => ({}, false)

/-- Function `New` from `errors/errors.go`: one fresh Hop with a stack capture at
skip depth 2 and a single segment, fresh Metadata, every option applied to
both the Hop and the Metadata. -/
def New (env : Env) (msg : String) (ol : List JOption) : GoError :=
  let h : Hop := { newHop env with stackTrace := some (env.capture 2), errors := [newError msg] }
  let md : Metadata := newMetadata env
  let p := ol.foldl (fun (p : Hop × Metadata) o => (applyHop o p.1, applyMd o p.2)) (h, md)
  GoError.jett msg p.2 none none [p.1]

/-- The body of `Wrap` from `errors/errors.go` for a non-nil argument.
Mirrors the source statement by statement:
  * a chain value is cloned (`je.Clone()`, modelled from the spec as a deep
    copy — on pure values the identity; the heap model below renders the
    aliasing content of that step), a foreign error is adapted into a
    one-hop chain remembering the original;
  * if the current hop has no stack trace, capture one at skip depth 2;
  * prepend the new segment;
  * compute the fresh Metadata: assign a trace only if `hasTrace` finds none
    in the wrapped error's unwrap chain;
  * apply each option to the current hop and the metadata;
  * overwrite `message`, `err` and `metadata`.
Where the Go code would panic (a chain value with an empty `Hops` slice,
indexing `je.Hops[0]`), the embedding leaves the hop list untouched; no
theorem below touches such inputs. -/
def wrapE (env : Env) (input : GoError) (msg : String) (ol : List JOption) : GoError :=
  let start : String × Metadata × Option GoError × Option GoError × List Hop :=
    match input with
    | .jett m md orig w hops => (m, md, orig, w, hops)
    | f => ("", {}, some f, none, [{ newHop env with errors := [{ message := errMessage f }] }])
  let hops0 := start.2.2.2.2
  let hops1 :=
    if (hops0.headD {}).stackTrace = none then
      hops0.modifyHead fun h => { h with stackTrace := some (env.capture 2) }
    else hops0
  let hops2 := hops1.modifyHead fun h => { h with errors := newError msg :: h.errors }
  let md0 : Metadata := if (hasTrace input).2 then {} else { trace := traceHop env }
  let p := ol.foldl
    (fun (p : List Hop × Metadata) o => (p.1.modifyHead (applyHop o), applyMd o p.2)) (hops2, md0)
  GoError.jett msg p.2 start.2.2.1 (some input) p.1

/-- Function `Wrap` from `errors/errors.go`: nil in, nil out; otherwise the body
above. -/
def Wrap (env : Env) (err : Option GoError) (msg : String) (ol : List JOption) : Option GoError :=
  match err with
  | none => none
  | some e => some (wrapE env e msg ol)

/-- Iterated wrapping within one process: each step is a `Wrap` call with a
message and an option list. -/
def wrapMany (env : Env) : GoError → List (String × List JOption) → GoError
  | e, [] => e
  | e, (msg, ol) :: rest => wrapMany env (wrapE env e msg ol) rest

/-- Function `GetCodes` from `errors/errors.go`: the non-empty codes over all hops
and segments, in chain order. -/
def GetCodes (e : GoError) : List String :=
  match e with
  | .jett _ _ _ _ hops =>
      hops.foldl (fun res h =>
        h.errors.foldl (fun res er => if er.code = "" then res else res ++ [er.code]) res) []
  | _ => []

/-!
## Heap model of `Wrap`'s chain branch

`Wrap`'s no-mutation guarantee is about pointer aliasing: the argument is a
`*JettisonError`, and the source first executes `je = je.Clone()` so that
every subsequent field write goes through the clone's pointer, never the
caller's.  To state that faithfully we render exactly that branch of `Wrap`
over an explicit heap of `JettisonError` cells: pointers are indices, the
clone is an allocation at a fresh index, and each Go statement that writes
through `je` becomes a `List.set` at that fresh index.
-/

/-- A Go `error` value in the heap model: foreign errors are immutable
values, a `*JettisonError` is a pointer (index) into the heap. -/
inductive ErrRef where
  | basic (msg : String)
  | wrapped (msg : String) (inner : ErrRef)
  | joined (msg : String) (children : List ErrRef)
  | jptr (p : Nat)

/-- The fields of one heap-allocated `JettisonError` cell. -/
structure HJett where
  message : String := ""
  metadata : Metadata := {}
  originalErr : Option ErrRef := none
  err : Option ErrRef := none
  hops : List Hop := []

instance : Inhabited HJett := ⟨{}⟩

/-- Function `hasTrace` over the heap, fuelled: each unwrap step consumes fuel, so
the walk is total even on heaps that tie a reference cycle (where the Go
loop would not terminate). -/
def hasTraceH (s : List HJett) : Nat → ErrRef → Bool
  | 0, _ => false
  | fuel + 1, .jptr p =>
      match s[p]? with
      | some d =>
          if d.metadata.trace.binary ≠ "" then true
          else
            match d.err with
            | some e => hasTraceH s fuel e
            | none => false
      | none => false
  | fuel + 1, .wrapped _ inner => hasTraceH s fuel inner
  | _ + 1, .basic _ => false
  | _ + 1, .joined _ _ => false

/-- One option-application step of `Wrap`'s loop in the heap model:
`o.Apply(&je.Hops[0])` writes through the clone's pointer `q`, and
`o.Apply(&md)` updates the local metadata. -/
def optStepH (q : Nat) (acc : List HJett × Metadata) (o : JOption) : List HJett × Metadata :=
  (acc.1.set q { acc.1.getD q default with
      hops := (acc.1.getD q default).hops.modifyHead (applyHop o) },
   applyMd o acc.2)

/-- The chain branch of `Wrap` from `errors/errors.go` over the explicit
heap: `p` is the caller's `*JettisonError`.  `je = je.Clone()` allocates a
deep copy (modelled from the spec: the clone shares no mutable state with
the input) at the fresh index `q`; every later write of the source goes
through `q`.  Returns the heap after the call and the result pointer. -/
def wrapH (env : Env) (s : List HJett) (p : Nat) (msg : String) (ol : List JOption) :
    List HJett × Nat :=
  let q := s.length
  let s1 := s ++ [s.getD p default]
  let s2 :=
    if ((s1.getD q default).hops.headD {}).stackTrace = none then
      s1.set q { s1.getD q default with
        hops := (s1.getD q default).hops.modifyHead fun h =>
          { h with stackTrace := some (env.capture 2) } }
    else s1
  let s3 := s2.set q { s2.getD q default with
    hops := (s2.getD q default).hops.modifyHead fun h =>
      { h with errors := newError msg :: h.errors } }
  let md0 : Metadata :=
    if hasTraceH s3 (s3.length + 1) (.jptr p) then {} else { trace := traceHop env }
  let p2 := ol.foldl (optStepH q) (s3, md0)
  let s4 := p2.1.set q { p2.1.getD q default with
    message := msg, err := some (.jptr p), metadata := p2.2 }
  (s4, q)

/-!
## The log package (`log/log.go`)

`errorEntry` receives a flattened path as a `[]error` and inspects each
element only through two dynamic tests (`interface \x7b Unwrap() []error \x7d`
and `*internal.Error`) plus the fields of the latter; `PathNode` records
exactly that view of one path element.
-/

/-- What `errorEntry` can observe of one element of a flattened path:
whether it is a joined error, its `Error()` rendering, whether it is a chain
node (`*internal.Error`), and — for chain nodes — the per-segment code,
source, key/values, plus the contributing binary and its stack trace. -/
structure PathNode where
  isJoin : Bool := false
  errMsg : String := ""
  isJett : Bool := false
  code : String := ""
  source : String := ""
  binary : String := ""
  kv : List (String × String) := []
  stackTrace : List String := []
deriving DecidableEq

/-- Modelled from the spec: the view a flattened chain node presents to the
log builder — a chain value exposes its latest segment's code, source and
parameters together with its current hop's binary and stack trace; foreign
errors expose only their rendering and whether they are joined. -/
def toPathNode : GoError → PathNode
  | .basic m => { errMsg := m }
  | .wrapped m _ => { errMsg := m }
  | .joined m _ => { isJoin := true, errMsg := m }
  | .jett m _ _ _ hops =>
      let h := hops.headD {}
      let seg := h.errors.headD {}
      { errMsg := m, isJett := true, code := seg.code, source := seg.source,
        binary := h.binary, kv := seg.kv, stackTrace := h.stackTrace.getD [] }

mutual

/-- Modelled from the spec: `errors.Flatten` — depth-first decomposition of
an error into every outermost-to-innermost path.  A joined node starts one
path per child and appears at the head of each (its message is excluded
later, by the entry builder); a single-unwrap node is appended to the
current path; a leaf terminates its path. -/
def Flatten : GoError → List (List GoError)
  | .basic m => [[.basic m]]
  | .wrapped m inner => (Flatten inner).map (.wrapped m inner :: ·)
  | .joined m children =>
      (FlattenAll children).map (.joined m children :: ·)
  | .jett m md orig w hops =>
      match w with
      | some inner => (Flatten inner).map (.jett m md orig (some inner) hops :: ·)
      | none => [[.jett m md orig none hops]]

/-- Flattening of every child of a joined node, concatenated in order. -/
def FlattenAll : List GoError → List (List GoError)
  | [] => []
  | c :: rest => Flatten c ++ FlattenAll rest

end

/-- The log projection of one flattened path (`ErrorObject` in the log
package): message, code, source, list of contributing binaries, merged
binary-annotated stack trace, accumulated parameters. -/
structure ErrorObject where
  message : String := ""
  code : String := ""
  source : String := ""
  stack : List String := []
  stackTrace : List (String × String) := []
  parameters : List (String × String) := []
deriving DecidableEq

/-- Function `errorEntry` from `log/log.go`, one loop iteration: the running
`ErrorObject` together with the `trace.Merge` accumulator (modelled from the
spec: frames are appended verbatim in hop order, each tagged with its hop's
binary).  A joined element clears the message; otherwise the element's
rendering fills the message only while it is still empty.  Elements that are
not chain nodes contribute nothing else (the `continue`). -/
def errorEntryStep (acc : ErrorObject × List (String × String)) (err : PathNode) :
    ErrorObject × List (String × String) :=
  let e := acc.1
  let e :=
    if err.isJoin then { e with message := "" }
    else if e.message = "" then { e with message := err.errMsg }
    else e
  if !err.isJett then (e, acc.2)
  else
    let e := if e.code = "" then { e with code := err.code } else e
    let e := if err.source ≠ "" then { e with source := err.source } else e
    let e := if err.binary ≠ "" then { e with stack := e.stack ++ [err.binary] } else e
    let e := { e with parameters := e.parameters ++ err.kv }
    let m := if 0 < err.stackTrace.length
             then acc.2 ++ err.stackTrace.map (fun fr => (fr, err.binary)) else acc.2
    (e, m)

/-- Function `errorEntry` from `log/log.go`: fold the loop over the path and attach
the merged trace. -/
def errorEntry (errPath : List PathNode) : ErrorObject :=
  if errPath.length = 0 then {}
  else
    let p := errPath.foldl errorEntryStep ({}, [])
    { p.1 with stackTrace := p.2 }

/-- A log record (`Entry` in the log package): message, call-site source,
level, timestamp, top-level parameters, and the error projections. -/
structure Entry where
  message : String := ""
  source : String := ""
  level : String := ""
  timestamp : Nat := 0
  parameters : List (String × String) := []
  errorCode : Option String := none
  errorObject : Option ErrorObject := none
  errorObjects : List ErrorObject := []
deriving DecidableEq

/-- Constant `LevelError` of `log/log.go`. -/
def LevelError : String := "error"

/-- The log options the builder recognises: `WithLevel`, `WithError`, and a
key/value-adding option (modelled from the spec: options may supply
key/value parameters to the record). -/
inductive LogOption where
  | withLevel (lvl : String)
  | withError (err : Option GoError)
  | withKV (k v : String)

/-- Function `addErrors` from `log/log.go`: flatten the error; a single path becomes
the record's one `ErrorObject`, several paths become the list; either way
each path's parameters are spliced into the record's top-level list. -/
def addErrors (e : Entry) (err : Option GoError) : Entry :=
  match err with
  | none => e
  | some er =>
      let paths := (Flatten er).map (fun p => p.map toPathNode)
      if paths.length = 1 then
        let ent := errorEntry (paths.headD [])
        { e with parameters := e.parameters ++ ent.parameters, errorObject := some ent }
      else
        paths.foldl (fun e p =>
          let ent := errorEntry p
          { e with parameters := e.parameters ++ ent.parameters,
                   errorObjects := e.errorObjects ++ [ent] }) e

/-- Option application (`ApplyToLog`): `WithLevel` overrides the level;
`WithError` records the most recent code of the chain and runs `addErrors`;
the key/value option appends one parameter. -/
def applyToLog : LogOption → Entry → Entry
  | .withLevel lvl, e => { e with level := lvl }
  | .withError err, e =>
      let codes := match err with | some er => GetCodes er | none => []
      let e := match codes with | [] => e | c :: _ => { e with errorCode := some c }
      addErrors e err
  | .withKV k v, e => { e with parameters := e.parameters ++ [(k, v)] }

/-- The key order `sort.Slice` establishes on the parameter list. -/
def paramLE (a b : String × String) : Prop := a.1 ≤ b.1

instance : DecidableRel paramLE := fun a b => inferInstanceAs (Decidable (a.1 ≤ b.1))

instance : IsTotal (String × String) paramLE := ⟨fun a b => le_total a.1 b.1⟩

instance : IsTrans (String × String) paramLE := ⟨fun _ _ _ hab hbc => le_trans hab hbc⟩

/-- The `sort.Slice(l.Parameters, ...)` call of `makeEntry`: a sort of the
parameter list by key (the Go sort is unstable, so any key-sorted
permutation is a faithful rendering; insertion sort is the one used here). -/
def sortParams (l : List (String × String)) : List (String × String) :=
  List.insertionSort paramLE l

/-- Function `newEntry` from `log/log.go`: message, formatted caller at the given
skip, level, current time. -/
def newEntry (env : Env) (msg : String) (lvl : String) (stackSkip : Nat) : Entry :=
  { message := msg, source := env.caller stackSkip, level := lvl, timestamp := env.now }

/-- Function `makeEntry` from `log/log.go`: build the defaults, apply every option,
append the context's key/values, and sort the parameter list by key.  The
context's jettison key/value pairs are passed as an explicit list. -/
def makeEntry (env : Env) (ctx : List (String × String)) (msg : String) (lvl : String)
    (opts : List LogOption) : Entry :=
  let l := newEntry env msg lvl 3
  let l := opts.foldl (fun e o => applyToLog o e) l
  let l := { l with parameters := l.parameters ++ ctx }
  { l with parameters := sortParams l.parameters }

/-- The sentinel message `log.Error` substitutes for a nil error. -/
def nilErrMsg : String := "nil error logged - this is probably a bug"

/-- Function `Error` from `log/log.go`: a nil error is replaced by the sentinel chain
`errors.New(nilErrMsg)`; `WithError` is appended to the options and the
entry is built from the error's rendering at level error.  The function
returns the record handed to `logger.Log`. -/
def logError (env : Env) (ctx : List (String × String)) (err : Option GoError)
    (opts : List LogOption) : Entry :=
  let er : GoError :=
    match err with
    | none => New env nilErrMsg []
    | some e => e
  let opts2 := opts ++ [LogOption.withError (some er)]
  makeEntry env ctx (errMessage er) LevelError opts2

/-!
## Specification-side definitions

`specMessageLast` renders the message clause of the spec exactly as worded
("the last (innermost) segment message among non-joined nodes on the
path"); it is compared against `errorEntry`.  `msgAmended`, `codeSpec` and
`sourceSpec` are the closed-form rules the entry builder actually follows.
-/

/-- The spec's wording of the message rule: the last (innermost) rendering
among non-joined nodes of the path. -/
def specMessageLast (path : List PathNode) : String :=
  ((path.filter (fun n => !n.isJoin)).map PathNode.errMsg).getLastD ""

/-- The message rule the entry builder follows: the first non-empty
rendering among non-joined nodes after the last joined node of the path
(joined nodes contribute no message and reset the search). -/
def msgAmended : List PathNode → String
  | [] => ""
  | n :: rest =>
      if rest.any (fun x => x.isJoin) then msgAmended rest
      else if n.isJoin then msgAmended rest
      else if n.errMsg ≠ "" then n.errMsg
      else msgAmended rest

/-- The code rule: the first non-empty code among chain nodes, walking the
path outermost to innermost. -/
def codeSpec : List PathNode → String
  | [] => ""
  | n :: rest => if n.isJett ∧ n.code ≠ "" then n.code else codeSpec rest

/-- The source rule: the last non-empty per-segment source among chain
nodes along the path. -/
def sourceSpec : List PathNode → String
  | [] => ""
  | n :: rest =>
      if sourceSpec rest ≠ "" then sourceSpec rest
      else if n.isJett ∧ n.source ≠ "" then n.source else ""

/-- The message component of one `errorEntry` loop iteration. -/
def msgStep (cur : String) (n : PathNode) : String :=
  if n.isJoin then "" else if cur = "" then n.errMsg else cur

/-- The code component of one `errorEntry` loop iteration. -/
def codeStep (cur : String) (n : PathNode) : String :=
  if n.isJett then (if cur = "" then n.code else cur) else cur

/-- The source component of one `errorEntry` loop iteration. -/
def srcStep (cur : String) (n : PathNode) : String :=
  if n.isJett then (if n.source ≠ "" then n.source else cur) else cur

/-- Whether a jettison option writes the Metadata-level code. -/
def setsMdCode : JOption → Bool
  | .withCode _ => true
  | _ => false

/-- Whether a jettison option writes the Metadata trace's binary. -/
def setsMdBinary : JOption → Bool
  | .withBinary _ => true
  | _ => false

/-- A concrete environment for the evaluated witnesses. -/
def env0 : Env :=
  { binary := "testbin", capture := fun _ => ["frame"], caller := fun _ => "caller", now := 7 }

/-- A concrete chain cell for the heap-model witness. -/
def cell0 : HJett :=
  { message := "boom", metadata := { trace := { binary := "testbin" } },
    hops := [{ binary := "testbin", stackTrace := some ["f0"],
               errors := [{ message := "boom" }] }] }

/-- A concrete chain value owning a Metadata trace. -/
def owner0 : GoError :=
  GoError.jett "own" { trace := { binary := "ownerbin" } } none none
    [{ binary := "ownerbin", stackTrace := some ["f1"], errors := [{ message := "own" }] }]

/-- A concrete current hop with one segment and a captured trace. -/
def hop1 : Hop :=
  { binary := "testbin", stackTrace := some ["t0"], errors := [{ message := "orig" }] }

/-- The two-node flattened path of `Wrap(basic "inner", "outer")`, used to
separate the entry builder's message rule from the spec's wording. -/
def path0 : List PathNode :=
  ((Flatten (wrapE env0 (GoError.basic "inner") "outer" [])).headD []).map toPathNode

/-!
## Helper lemmas
-/

lemma applyHop_keep (o : JOption) (h : Hop) (hh : 2 ≤ h.errors.length) :
    (applyHop o h).stackTrace = h.stackTrace ∧ (applyHop o h).errors.length = h.errors.length := by
  cases o with
  | withBinary bin => simp [applyHop]
  | withCode code =>
      cases he : h.errors with
      | nil => rw [he] at hh; simp at hh
      | cons e rest => simp [applyHop, he]
  | withoutStackTrace =>
      have hl : ¬ h.errors.length ≤ 1 := by omega
      simp [applyHop, hl]

lemma hopFold_keep : ∀ (ol : List JOption) (h : Hop), 2 ≤ h.errors.length →
    (ol.foldl (fun h o => applyHop o h) h).stackTrace = h.stackTrace ∧
    2 ≤ (ol.foldl (fun h o => applyHop o h) h).errors.length := by
  intro ol
  induction ol with
  | nil => intro h hh; exact ⟨rfl, hh⟩
  | cons o ol ih =>
      intro h hh
      have h1 := applyHop_keep o h hh
      have h2 := ih (applyHop o h) (h1.2 ▸ hh)
      simp only [List.foldl_cons]
      exact ⟨h2.1.trans h1.1, h2.2⟩

lemma pairFold_fst : ∀ (ol : List JOption) (hs : List Hop) (md : Metadata),
    (ol.foldl (fun (p : List Hop × Metadata) o =>
        (p.1.modifyHead (applyHop o), applyMd o p.2)) (hs, md)).1
      = ol.foldl (fun hs o => hs.modifyHead (applyHop o)) hs := by
  intro ol
  induction ol with
  | nil => intro hs md; rfl
  | cons o ol ih => intro hs md; simp only [List.foldl_cons]; exact ih _ _

lemma pairFold_snd : ∀ (ol : List JOption) (hs : List Hop) (md : Metadata),
    (ol.foldl (fun (p : List Hop × Metadata) o =>
        (p.1.modifyHead (applyHop o), applyMd o p.2)) (hs, md)).2
      = ol.foldl (fun md o => applyMd o md) md := by
  intro ol
  induction ol with
  | nil => intro hs md; rfl
  | cons o ol ih => intro hs md; simp only [List.foldl_cons]; exact ih _ _

lemma hopsFold_cons : ∀ (ol : List JOption) (h : Hop) (t : List Hop),
    ol.foldl (fun hs o => hs.modifyHead (applyHop o)) (h :: t)
      = (ol.foldl (fun h o => applyHop o h) h) :: t := by
  intro ol
  induction ol with
  | nil => intro h t; rfl
  | cons o ol ih => intro h t; simp only [List.foldl_cons, List.modifyHead_cons]; exact ih _ _

lemma wrapE_hop0_stackTrace (env : Env) (m : String) (md : Metadata)
    (orig w : Option GoError) (h : Hop) (t : List Hop) (msg : String) (ol : List JOption)
    (hne : h.errors ≠ []) :
    (hop0 (wrapE env (.jett m md orig w (h :: t)) msg ol)).stackTrace
      = some (h.stackTrace.getD (env.capture 2)) := by
  have hlen : 1 ≤ h.errors.length := List.length_pos.mpr hne
  cases hst : h.stackTrace with
  | none =>
      have h2 : 2 ≤ (newError msg :: h.errors).length := by simp; omega
      have hk := (hopFold_keep ol
        { h with stackTrace := some (env.capture 2), errors := newError msg :: h.errors } h2).1
      simp [wrapE, hst, hop0, GoError.hops, pairFold_fst, hopsFold_cons, hk]
  | some tr =>
      have h2 : 2 ≤ (newError msg :: h.errors).length := by simp; omega
      have hk := (hopFold_keep ol { h with errors := newError msg :: h.errors } h2).1
      rw [hst] at hk
      simp [wrapE, hst, hop0, GoError.hops, pairFold_fst, hopsFold_cons, hk]

/-- The shape `Wrap` maintains on an in-process chain: a chain value whose
current hop has at least one segment and the stack trace `tr`. -/
def GoodChain (tr : List String) (e : GoError) : Prop :=
  e.isJett = true ∧ e.hops ≠ [] ∧ (hop0 e).errors ≠ [] ∧ (hop0 e).stackTrace = some tr

lemma wrapE_good (env : Env) (msg : String) (ol : List JOption) (tr : List String)
    (e : GoError) (hg : GoodChain tr e) : GoodChain tr (wrapE env e msg ol) := by
  obtain ⟨hj, hh, he, hst⟩ := hg
  cases e with
  | basic m => simp [GoError.isJett] at hj
  | wrapped m inner => simp [GoError.isJett] at hj
  | joined m cs => simp [GoError.isJett] at hj
  | jett m md orig w hops =>
      cases hops with
      | nil => simp [GoError.hops] at hh
      | cons h t =>
          simp only [hop0, GoError.hops, List.headD_cons] at he hst
          have h2 : 2 ≤ (newError msg :: h.errors).length := by
            have := List.length_pos.mpr he
            simp; omega
          have hk := hopFold_keep ol { h with errors := newError msg :: h.errors } h2
          have hk2 : (List.foldl (fun h o => applyHop o h)
              { h with errors := newError msg :: h.errors } ol).errors ≠ [] := by
            have hl := hk.2
            intro hcon
            rw [hcon] at hl
            simp at hl
          rw [hst] at hk hk2
          refine ⟨rfl, ?_, ?_, ?_⟩ <;>
            simp [wrapE, hst, hop0, GoError.hops, pairFold_fst, hopsFold_cons, hk.1, hk2]

lemma wrapMany_good (env : Env) (tr : List String) :
    ∀ (steps : List (String × List JOption)) (e : GoError),
      GoodChain tr e → GoodChain tr (wrapMany env e steps) := by
  intro steps
  induction steps with
  | nil => intro e hg; exact hg
  | cons s rest ih =>
      intro e hg
      cases s with
      | mk msg ol => exact ih (wrapE env e msg ol) (wrapE_good env msg ol tr e hg)

lemma mdFold_code : ∀ (ol : List JOption) (md : Metadata),
    (ol.all fun o => !setsMdCode o) = true →
    (ol.foldl (fun md o => applyMd o md) md).code = md.code := by
  intro ol
  induction ol with
  | nil => intro md _; rfl
  | cons o ol ih =>
      intro md hall
      simp only [List.all_cons, Bool.and_eq_true] at hall
      have step : (applyMd o md).code = md.code := by
        cases o with
        | withBinary bin => simp [applyMd]
        | withCode code => simp [setsMdCode] at hall
        | withoutStackTrace => simp [applyMd]
      simp only [List.foldl_cons]
      rw [ih (applyMd o md) hall.2, step]

lemma mdFold_traceEmpty : ∀ (ol : List JOption) (md : Metadata),
    (ol.all fun o => !setsMdBinary o) = true → md.trace = {} →
    (ol.foldl (fun md o => applyMd o md) md).trace = {} := by
  intro ol
  induction ol with
  | nil => intro md _ h0; exact h0
  | cons o ol ih =>
      intro md hall h0
      simp only [List.all_cons, Bool.and_eq_true] at hall
      have step : (applyMd o md).trace = {} := by
        cases o with
        | withBinary bin => simp [setsMdBinary] at hall
        | withCode code => simpa [applyMd] using h0
        | withoutStackTrace => simp [applyMd]
      simp only [List.foldl_cons]
      exact ih (applyMd o md) hall.2 step

lemma errorEntryStep_message (acc : ErrorObject × List (String × String)) (n : PathNode) :
    (errorEntryStep acc n).1.message = msgStep acc.1.message n := by
  by_cases hj : n.isJoin <;> by_cases hm : acc.1.message = "" <;>
    by_cases hje : n.isJett <;>
    simp [errorEntryStep, msgStep, hj, hm, hje, apply_ite ErrorObject.message]

lemma errorEntryStep_code (acc : ErrorObject × List (String × String)) (n : PathNode) :
    (errorEntryStep acc n).1.code = codeStep acc.1.code n := by
  by_cases hj : n.isJoin <;> by_cases hm : acc.1.message = "" <;>
    by_cases hje : n.isJett <;> by_cases hc : acc.1.code = "" <;>
    simp [errorEntryStep, codeStep, hj, hm, hje, hc, apply_ite ErrorObject.code]

lemma errorEntryStep_source (acc : ErrorObject × List (String × String)) (n : PathNode) :
    (errorEntryStep acc n).1.source = srcStep acc.1.source n := by
  by_cases hj : n.isJoin <;> by_cases hm : acc.1.message = "" <;>
    by_cases hje : n.isJett <;> by_cases hc : acc.1.code = "" <;>
    by_cases hs : n.source = "" <;>
    simp [errorEntryStep, srcStep, hj, hm, hje, hc, hs, apply_ite ErrorObject.source]

lemma errorEntry_fold_components : ∀ (path : List PathNode)
    (acc : ErrorObject × List (String × String)),
    (path.foldl errorEntryStep acc).1.message = path.foldl msgStep acc.1.message ∧
    (path.foldl errorEntryStep acc).1.code = path.foldl codeStep acc.1.code ∧
    (path.foldl errorEntryStep acc).1.source = path.foldl srcStep acc.1.source := by
  intro path
  induction path with
  | nil => intro acc; exact ⟨rfl, rfl, rfl⟩
  | cons n rest ih =>
      intro acc
      have h := ih (errorEntryStep acc n)
      simp only [List.foldl_cons]
      rw [errorEntryStep_message acc n, errorEntryStep_code acc n,
        errorEntryStep_source acc n] at h
      exact h

lemma msgAmended_cons_join (n : PathNode) (rest : List PathNode) (hj : n.isJoin = true) :
    msgAmended (n :: rest) = msgAmended rest := by
  by_cases hr : rest.any (fun x => x.isJoin) <;> simp [msgAmended, hr, hj]

lemma foldl_msgStep : ∀ (path : List PathNode) (s : String),
    path.foldl msgStep s =
      if path.any (fun x => x.isJoin) then msgAmended path
      else if s = "" then msgAmended path else s := by
  intro path
  induction path with
  | nil => intro s; by_cases hs : s = "" <;> simp [msgAmended, hs]
  | cons n rest ih =>
      intro s
      simp only [List.foldl_cons, List.any_cons]
      by_cases hj : n.isJoin
      · rw [ih]
        by_cases hr : rest.any (fun x => x.isJoin) <;>
          simp [msgStep, hj, hr, msgAmended_cons_join n rest hj]
      · by_cases hs : s = ""
        · rw [ih]
          by_cases hr : rest.any (fun x => x.isJoin)
          · simp [msgStep, hj, hs, hr, msgAmended]
          · by_cases hm : n.errMsg = ""
            · simp [msgStep, hj, hs, hr, hm, msgAmended]
            · simp [msgStep, hj, hs, hr, hm, msgAmended]
        · rw [ih]
          by_cases hr : rest.any (fun x => x.isJoin)
          · simp [msgStep, hj, hs, hr, msgAmended_cons_join, msgAmended]
          · simp [msgStep, hj, hs, hr, msgAmended]

lemma foldl_codeStep : ∀ (path : List PathNode) (s : String),
    path.foldl codeStep s = if s = "" then codeSpec path else s := by
  intro path
  induction path with
  | nil => intro s; by_cases hs : s = "" <;> simp [codeSpec, hs]
  | cons n rest ih =>
      intro s
      simp only [List.foldl_cons]
      by_cases hs : s = ""
      · by_cases hje : n.isJett
        · by_cases hc : n.code = ""
          · simp [codeStep, hs, hje, hc, ih, codeSpec]
          · simp [codeStep, hs, hje, hc, ih, codeSpec]
        · simp [codeStep, hs, hje, ih, codeSpec]
      · have hstep : codeStep s n = s := by
          by_cases hje : n.isJett <;> simp [codeStep, hje, hs]
        rw [hstep, ih]
        simp [hs]

lemma foldl_srcStep : ∀ (path : List PathNode) (s : String),
    path.foldl srcStep s = if sourceSpec path = "" then s else sourceSpec path := by
  intro path
  induction path with
  | nil => intro s; simp [sourceSpec]
  | cons n rest ih =>
      intro s
      simp only [List.foldl_cons]
      rw [ih]
      by_cases hr : sourceSpec rest = ""
      · by_cases hje : n.isJett
        · by_cases hs : n.source = ""
          · simp [srcStep, sourceSpec, hr, hje, hs]
          · simp [srcStep, sourceSpec, hr, hje, hs]
        · simp [srcStep, sourceSpec, hr, hje]
      · simp [sourceSpec, hr]

lemma optFold_frame (q : Nat) : ∀ (ol : List JOption) (st : List HJett) (md : Metadata),
    (ol.foldl (optStepH q) (st, md)).1.length = st.length ∧
    ∀ p, p ≠ q → ((ol.foldl (optStepH q) (st, md)).1)[p]? = st[p]? := by
  intro ol
  induction ol with
  | nil => intro st md; exact ⟨rfl, fun p _ => rfl⟩
  | cons o ol ih =>
      intro st md
      simp only [List.foldl_cons]
      have h := ih (optStepH q (st, md) o).1 (optStepH q (st, md) o).2
      constructor
      · rw [h.1]; simp [optStepH]
      · intro p hp
        rw [h.2 p hp]
        simpa [optStepH] using List.getElem?_set_ne (Ne.symm hp)

lemma foldl_preserve {α β : Type} (f : β → α → β) (proj : β → String)
    (hpres : ∀ b a, proj (f b a) = proj b) :
    ∀ (l : List α) (b : β), proj (l.foldl f b) = proj b := by
  intro l
  induction l with
  | nil => intro b; rfl
  | cons a l ih => intro b; simp only [List.foldl_cons]; rw [ih, hpres]

lemma addErrors_message (e : Entry) (err : Option GoError) :
    (addErrors e err).message = e.message := by
  cases err with
  | none => rfl
  | some er =>
      simp only [addErrors]
      by_cases hl : ((Flatten er).map (fun p => p.map toPathNode)).length = 1
      · simp [hl]
      · simp only [hl, reduceIte]
        exact foldl_preserve
          (fun e p => { e with parameters := e.parameters ++ (errorEntry p).parameters,
                               errorObjects := e.errorObjects ++ [errorEntry p] })
          Entry.message (fun b a => rfl) _ e

lemma applyToLog_message (o : LogOption) (e : Entry) :
    (applyToLog o e).message = e.message := by
  cases o with
  | withLevel lvl => rfl
  | withKV k v => rfl
  | withError err =>
      cases err with
      | none => rfl
      | some er =>
          simp only [applyToLog]
          cases hg : GetCodes er with
          | nil => simpa [hg] using addErrors_message e (some er)
          | cons c cs =>
              simpa [hg] using addErrors_message { e with errorCode := some c } (some er)

lemma logFold_message : ∀ (opts : List LogOption) (e : Entry),
    (opts.foldl (fun e o => applyToLog o e) e).message = e.message :=
  foldl_preserve _ Entry.message (fun b a => applyToLog_message a b)

lemma wrapE_goodFrom (env : Env) (m : String) (md : Metadata) (orig w : Option GoError)
    (h : Hop) (t : List Hop) (msg : String) (ol : List JOption) (hne : h.errors ≠ []) :
    GoodChain (h.stackTrace.getD (env.capture 2))
      (wrapE env (.jett m md orig w (h :: t)) msg ol) := by
  refine ⟨?_, ?_, ?_, wrapE_hop0_stackTrace env m md orig w h t msg ol hne⟩
  · simp [wrapE, GoError.isJett]
  · cases hst : h.stackTrace <;>
      simp [wrapE, hst, GoError.hops, pairFold_fst, hopsFold_cons]
  · have hlen : 1 ≤ h.errors.length := List.length_pos.mpr hne
    cases hst : h.stackTrace with
    | none =>
        have h2 : 2 ≤ (newError msg :: h.errors).length := by simp; omega
        have hk := (hopFold_keep ol
          { h with stackTrace := some (env.capture 2), errors := newError msg :: h.errors } h2).2
        have hk2 := List.ne_nil_of_length_pos (l := (List.foldl (fun h o => applyHop o h)
          { h with stackTrace := some (env.capture 2),
                   errors := newError msg :: h.errors } ol).errors) (by omega)
        simp [wrapE, hst, hop0, GoError.hops, pairFold_fst, hopsFold_cons, hk2]
    | some tr =>
        have h2 : 2 ≤ (newError msg :: h.errors).length := by simp; omega
        have hk := (hopFold_keep ol { h with errors := newError msg :: h.errors } h2).2
        have hk2 := List.ne_nil_of_length_pos (l := (List.foldl (fun h o => applyHop o h)
          { h with errors := newError msg :: h.errors } ol).errors) (by omega)
        rw [hst] at hk2
        simp [wrapE, hst, hop0, GoError.hops, pairFold_fst, hopsFold_cons, hk2]

/-!
## Claim theorems
-/

/-- C6: for every message string and option list, `Wrap(nil, msg, opts...)`
returns nil; this holds unconditionally. -/
theorem wrap_nil_returns_nil (env : Env) (msg : String) (ol : List JOption) :
    Wrap env none msg ol = none := rfl

/-- C7: `GetCodes` returns the non-empty codes latest-wrapped first: with
`e1 := New("a", WithCode("X"))` and `e2 := Wrap(e1, "b", WithCode("Y"))`,
`GetCodes(e2) = ["Y", "X"]`. -/
theorem getCodes_latest_first (env : Env) :
    (Wrap env (some (New env "a" [.withCode "X"])) "b" [.withCode "Y"]).map GetCodes
      = some ["Y", "X"] := rfl

/-- C2: `Wrap` assigns a fresh trace to its own Metadata exactly when
`hasTrace` finds no owner in the wrapped error's unwrap chain, and when an
owner exists the wrapped result still reports that same owner (the earliest
hop to acquire a trace retains ownership across later wraps). -/
theorem wrap_metadata_trace_set_once (env : Env) (input : GoError) (msg : String) :
    (wrapE env input msg []).metadata.trace
        = (if (hasTrace input).2 then ({} : Hop) else traceHop env)
    ∧ ((hasTrace input).2 = true →
        hasTrace (wrapE env input msg []) = hasTrace input) := by
  constructor
  · by_cases h : (hasTrace input).2 <;> simp [wrapE, GoError.metadata, h]
  · intro h
    simp [wrapE, hasTrace, h]

/-- Witness for C2: a chain owning a Metadata trace, wrapped once — the
owner is found and retained. -/
theorem wrap_metadata_trace_set_once_witness :
    (hasTrace owner0).2 = true ∧ hasTrace (wrapE env0 owner0 "m" []) = hasTrace owner0 :=
  ⟨by decide, (wrap_metadata_trace_set_once env0 owner0 "m").2 (by decide)⟩

/-- C4: within one hop the stack trace is captured at most once — `Wrap`
captures only when the current hop has none (`getD` selects the fresh
capture exactly in that case), and any further sequence of `Wrap` calls on
the resulting in-process chain leaves the first-captured trace unchanged. -/
theorem wrap_stack_capture_once (env : Env) (m : String) (md : Metadata)
    (orig w : Option GoError) (h : Hop) (t : List Hop) (msg : String) (ol : List JOption)
    (hne : h.errors ≠ []) :
    (hop0 (wrapE env (.jett m md orig w (h :: t)) msg ol)).stackTrace
        = some (h.stackTrace.getD (env.capture 2))
    ∧ ∀ steps, (hop0 (wrapMany env (wrapE env (.jett m md orig w (h :: t)) msg ol) steps)).stackTrace
        = some (h.stackTrace.getD (env.capture 2)) := by
  refine ⟨wrapE_hop0_stackTrace env m md orig w h t msg ol hne, fun steps => ?_⟩
  exact (wrapMany_good env _ steps _ (wrapE_goodFrom env m md orig w h t msg ol hne)).2.2.2

/-- Witness for C4: a hop with a trace, one wrap plus a further wrap step —
the original trace survives. -/
theorem wrap_stack_capture_once_witness :
    hop1.errors ≠ [] ∧
    (hop0 (wrapE env0 (.jett "e" {} none none [hop1]) "m" [])).stackTrace = some ["t0"] ∧
    (hop0 (wrapMany env0 (wrapE env0 (.jett "e" {} none none [hop1]) "m" [])
      [("m2", [])])).stackTrace = some ["t0"] := by
  have hw := wrap_stack_capture_once env0 "e" {} none none hop1 [] "m" [] (by decide)
  exact ⟨by decide, hw.1, hw.2 [("m2", [])]⟩

/-- C5: `WithoutStackTrace` on a Hop clears the trace exactly when the hop
has at most one segment; on a fresh `New` it clears the trace, and passed
to a `Wrap` on a chain (whose hop, after the prepend, has at least two
segments) it leaves the hop's trace as it would have been without it. -/
theorem withoutStackTrace_effect (env : Env) (msg m : String) (md : Metadata)
    (orig w : Option GoError) (h : Hop) (t : List Hop) (hne : h.errors ≠ []) :
    ((applyHop .withoutStackTrace h).stackTrace
        = if h.errors.length ≤ 1 then none else h.stackTrace)
    ∧ (hop0 (New env msg [.withoutStackTrace])).stackTrace = none
    ∧ (hop0 (wrapE env (.jett m md orig w (h :: t)) msg [.withoutStackTrace])).stackTrace
        = (hop0 (wrapE env (.jett m md orig w (h :: t)) msg [])).stackTrace := by
  refine ⟨?_, rfl, ?_⟩
  · by_cases hl : h.errors.length ≤ 1 <;> simp [applyHop, hl]
  · rw [wrapE_hop0_stackTrace env m md orig w h t msg [.withoutStackTrace] hne,
      wrapE_hop0_stackTrace env m md orig w h t msg [] hne]

/-- Witness for C5: evaluated at a one-segment hop with a captured trace. -/
theorem withoutStackTrace_effect_witness :
    hop1.errors ≠ [] ∧
    (applyHop .withoutStackTrace hop1).stackTrace = none ∧
    (hop0 (New env0 "n" [.withoutStackTrace])).stackTrace = none ∧
    (hop0 (wrapE env0 (.jett "e" {} none none [hop1]) "m" [.withoutStackTrace])).stackTrace
      = (hop0 (wrapE env0 (.jett "e" {} none none [hop1]) "m" [])).stackTrace := by
  have hw := withoutStackTrace_effect env0 "m" "e" {} none none hop1 [] (by decide)
  exact ⟨by decide, by decide, hw.2.1, hw.2.2⟩

/-- C10: `Wrap` on a chain value rebuilds the Metadata from scratch — with
no code-setting option the result's Metadata code is empty whatever the
input's was, and when the input's own Metadata holds a trace (and no
binary-setting option is passed) the result's own Metadata is empty. -/
theorem wrap_replaces_metadata (env : Env) (m : String) (md : Metadata)
    (orig w : Option GoError) (hops : List Hop) (msg : String) (ol : List JOption)
    (hcode : (ol.all fun o => !setsMdCode o) = true)
    (hbin : (ol.all fun o => !setsMdBinary o) = true) :
    (wrapE env (.jett m md orig w hops) msg ol).metadata.code = ""
    ∧ (md.trace.binary ≠ "" →
        (wrapE env (.jett m md orig w hops) msg ol).metadata.trace = ({} : Hop)) := by
  have hmeta : (wrapE env (.jett m md orig w hops) msg ol).metadata
      = ol.foldl (fun md o => applyMd o md)
          (if (hasTrace (.jett m md orig w hops)).2 then {}
           else { trace := traceHop env }) := by
    simp [wrapE, GoError.metadata, pairFold_snd]
  constructor
  · rw [hmeta, mdFold_code _ _ hcode]
    by_cases hh : (hasTrace (.jett m md orig w hops)).2 <;> simp [hh]
  · intro htr
    have h2 : (hasTrace (.jett m md orig w hops)).2 = true := by
      cases w <;> simp [hasTrace, htr]
    rw [hmeta, h2]
    simpa using mdFold_traceEmpty ol {} hbin rfl

/-- Witness for C10: a chain whose Metadata carries a code and a trace,
wrapped with no options — both are gone from the result's Metadata. -/
theorem wrap_replaces_metadata_witness :
    ((([] : List JOption).all fun o => !setsMdCode o) = true)
    ∧ (wrapE env0 (.jett "x" { code := "C", trace := { binary := "b" } } none none [hop1])
        "m" []).metadata.code = ""
    ∧ (wrapE env0 (.jett "x" { code := "C", trace := { binary := "b" } } none none [hop1])
        "m" []).metadata.trace = ({} : Hop) := by
  have hw := wrap_replaces_metadata env0 "x" { code := "C", trace := { binary := "b" } }
    none none [hop1] "m" [] (by decide) (by decide)
  exact ⟨by decide, hw.1, hw.2 (by decide)⟩

/-- C1: `Wrap` on a chain pointer never mutates the caller's cell — the
heap after the call holds the same value at the input pointer, because
every write goes through the freshly allocated clone. -/
theorem wrap_does_not_mutate_input (env : Env) (s : List HJett) (p : Nat) (msg : String)
    (ol : List JOption) (hp : p < s.length) :
    ((wrapH env s p msg ol).1)[p]? = s[p]? := by
  have hqp : s.length ≠ p := (Nat.ne_of_lt hp).symm
  simp only [wrapH]
  rw [List.getElem?_set_ne hqp]
  rw [(optFold_frame s.length ol _ _).2 p (Nat.ne_of_lt hp)]
  rw [List.getElem?_set_ne hqp]
  by_cases hC : (((s ++ [s.getD p default]).getD s.length default).hops.headD {}).stackTrace
      = none
  · rw [if_pos hC, List.getElem?_set_ne hqp, List.getElem?_append_left hp]
  · rw [if_neg hC, List.getElem?_append_left hp]

/-- Witness for C1: a one-cell heap, wrapped at pointer 0 — the cell is
unchanged. -/
theorem wrap_does_not_mutate_input_witness :
    0 < [cell0].length ∧ ((wrapH env0 [cell0] 0 "m" []).1)[0]? = [cell0][0]? :=
  ⟨by decide, wrap_does_not_mutate_input env0 [cell0] 0 "m" [] (by decide)⟩

/-- C3 (counterexample): on the flattened path of `Wrap(basic "inner",
"outer")` the entry builder's message is the outermost rendering, not the
last (innermost) non-joined message the claim states. -/
theorem errorEntry_message_not_innermost :
    (errorEntry path0).message ≠ specMessageLast path0 := by decide

/-- C3 (amended): for every flattened path, the `ErrorObject` has message
equal to the first non-empty rendering among non-joined nodes after the
last joined node (joined nodes contribute no message), code equal to the
first non-empty code walking outer-to-inner, and source equal to the last
non-empty per-segment source along the path. -/
theorem errorEntry_fields (path : List PathNode) :
    (errorEntry path).message = msgAmended path
    ∧ (errorEntry path).code = codeSpec path
    ∧ (errorEntry path).source = sourceSpec path := by
  cases path with
  | nil => exact ⟨rfl, rfl, rfl⟩
  | cons n rest =>
      have hc := errorEntry_fold_components (n :: rest) ({}, [])
      refine ⟨?_, ?_, ?_⟩
      · have hm : (errorEntry (n :: rest)).message
            = ((n :: rest).foldl errorEntryStep ({}, [])).1.message := by
          simp [errorEntry]
        rw [hm, hc.1]
        show (n :: rest).foldl msgStep "" = _
        rw [foldl_msgStep]
        by_cases hany : (n :: rest).any (fun x => x.isJoin) <;> simp [hany]
      · have hco : (errorEntry (n :: rest)).code
            = ((n :: rest).foldl errorEntryStep ({}, [])).1.code := by
          simp [errorEntry]
        rw [hco, hc.2.1]
        show (n :: rest).foldl codeStep "" = _
        rw [foldl_codeStep]
        simp
      · have hso : (errorEntry (n :: rest)).source
            = ((n :: rest).foldl errorEntryStep ({}, [])).1.source := by
          simp [errorEntry]
        rw [hso, hc.2.2]
        show (n :: rest).foldl srcStep "" = _
        rw [foldl_srcStep]
        by_cases hs : sourceSpec (n :: rest) = "" <;> simp [hs]

/-- C8: `log.Error` with a nil error never fails — it substitutes the
sentinel "nil error logged" chain, so the produced record is exactly the
one for that sentinel, and its message is the sentinel message. -/
theorem logError_nil_substitutes_sentinel (env : Env) (ctx : List (String × String))
    (opts : List LogOption) :
    logError env ctx none opts = logError env ctx (some (New env nilErrMsg [])) opts
    ∧ (logError env ctx none opts).message = nilErrMsg := by
  refine ⟨rfl, ?_⟩
  show (makeEntry env ctx (errMessage (New env nilErrMsg [])) LevelError
      (opts ++ [LogOption.withError (some (New env nilErrMsg []))])).message = nilErrMsg
  simp [makeEntry, logFold_message, applyToLog_message, newEntry, New, errMessage]

/-- C9: in every built log `Entry` the top-level parameter list — option
parameters, error-path parameters and context parameters together — is
sorted by key. -/
theorem makeEntry_parameters_sorted (env : Env) (ctx : List (String × String))
    (msg lvl : String) (opts : List LogOption) :
    List.Sorted paramLE (makeEntry env ctx msg lvl opts).parameters := by
  have hs := List.sorted_insertionSort paramLE
    ((opts.foldl (fun e o => applyToLog o e) (newEntry env msg lvl 3)).parameters ++ ctx)
  simpa [makeEntry, sortParams] using hs
